import Mathlib

/-!
Shallow embedding of the Auto_text_corrector correction engine
(`autocorrect/corrector.py` of the repository), together with theorems
checking the claims of the specification about it.

Python strings are modelled as Lean `String` (ASCII scope), Python `set`
membership as `List.contains` in set iteration order, Python
`dict`s as association lists with in-place update (Python 3.7+ ordered
dicts), `Counter` values as `Int` (the custom loader parses arbitrary
integers), and the external `SpellChecker.correction` collaborator as an
injected `String → Option String` oracle, per the interface in §6 of the spec.
All sorts in the source are the stable Python `list.sort`; they are
modelled with the stable `List.insertionSort`, which agrees with any
stable sort for a total transitive key relation.
-/

namespace Autocorrect

/-- Python whitespace characters recognised by `str.strip` / `str.split`
(ASCII subset). -/
def isPyWs (ch : Char) : Bool :=
  ch = ' ' || ch = '\t' || ch = '\n' || ch = '\r' || ch = '\x0b' || ch = '\x0c'

/-- Python `str.strip()`: drop leading and trailing whitespace. -/
def pyStrip (s : String) : String :=
  ⟨((s.data.dropWhile isPyWs).reverse.dropWhile isPyWs).reverse⟩

/-- Python `str.lower()` on the ASCII range. -/
def pyLower (s : String) : String :=
  ⟨s.data.map Char.toLower⟩

/-- Helper for `pySplitWs`: split a character list on whitespace runs. -/
def splitWsAux : List Char → List Char → List (List Char)
  | [], acc => if acc.isEmpty then [] else [acc.reverse]
  | ch :: cs, acc =>
    if isPyWs ch then
      if acc.isEmpty then splitWsAux cs [] else acc.reverse :: splitWsAux cs []
    else splitWsAux cs (ch :: acc)

/-- Python `str.split()` with no arguments: split on whitespace runs,
dropping empty fields. -/
def pySplitWs (s : String) : List String :=
  (splitWsAux s.data []).map (fun l => ⟨l⟩)

/-- Digit-run value, used by `pyInt?`. -/
def digitsVal (l : List Char) : Nat :=
  l.foldl (fun n ch => n * 10 + (ch.toNat - 48)) 0

/-- Parse a nonempty all-digit run. -/
def pyDigits? (l : List Char) : Option Nat :=
  if l ≠ [] ∧ l.all Char.isDigit then some (digitsVal l) else none

/-- Python `int(s)` on a whitespace-free field: optional sign followed by
digits; any other shape raises `ValueError`, modelled as `none`. -/
def pyInt? (s : String) : Option Int :=
  match s.data with
  | '-' :: rest => (pyDigits? rest).map (fun n => -(n : Int))
  | '+' :: rest => (pyDigits? rest).map (fun n => (n : Int))
  | l => (pyDigits? l).map (fun n => (n : Int))

/-- Python `string.punctuation`: the printable ASCII characters that are
neither alphanumeric nor whitespace (codes 33 to 47, 58 to 64, 91 to 96,
123 to 126). -/
def pythonPunct : List Char :=
  ((List.range 128).filter (fun n =>
    (33 ≤ n ∧ n ≤ 47) ∨ (58 ≤ n ∧ n ≤ 64) ∨ (91 ≤ n ∧ n ≤ 96) ∨
    (123 ≤ n ∧ n ≤ 126))).map Char.ofNat

/-- Contiguous-sublist check over character lists (Python `sub in s`). -/
def isInfixL (l1 l2 : List Char) : Bool :=
  match l2 with
  | [] => l1.isEmpty
  | _ :: t => l1.isPrefixOf l2 || isInfixL l1 t

/-- Python `token in string.punctuation`: substring containment. -/
def inPunct (t : String) : Bool :=
  isInfixL t.data pythonPunct

/-- Python `str.isdigit()` on ASCII: nonempty and all digits. -/
def pyIsDigit (t : String) : Bool :=
  !t.data.isEmpty && t.data.all Char.isDigit

/-- The skip test of the token loops in `correct_text` and
`correct_with_context`:
`if token in string.punctuation or token.isdigit()`. -/
def isPunctOrDigitToken (t : String) : Bool :=
  inPunct t || pyIsDigit t

/-- Inner loop of `_calculate_levenshtein_distance`: build the tail of
`current_row` from `word2`, the remaining `previous_row` and the cell to
the left.  `p0 :: p` aligns so that `p0` is `previous_row[j]` and the
head of `p` is `previous_row[j+1]`. -/
def levInner (c1 : Char) : List Char → List Nat → Nat → List Nat
  | [], _, _ => []
  | _ :: _, [], _ => []
  | c2 :: w2, p0 :: p, d =>
    let cell := min (min (p.headD 0 + 1) (d + 1)) (p0 + if c1 = c2 then 0 else 1)
    cell :: levInner c1 w2 p cell

/-- Outer loop of `_calculate_levenshtein_distance` over `word1`,
threading `previous_row`; `i` is the 0-based index of the next row. -/
def levOuter (word2 : List Char) : List Char → List Nat → Nat → List Nat
  | [], prevRow, _ => prevRow
  | c1 :: w1, prevRow, i =>
    levOuter word2 w1 ((i + 1) :: levInner c1 word2 prevRow (i + 1)) (i + 1)

/-- `_calculate_levenshtein_distance` after the length swap: dynamic
programming over rows, returning the last entry of the final row. -/
def levCore (word1 word2 : List Char) : Nat :=
  if word2.length = 0 then word1.length
  else (levOuter word2 word1 (List.range (word2.length + 1)) 0).getLastD 0

/-- `Corrector._calculate_levenshtein_distance`: swaps so the first word
is the longer one, then runs the row DP. -/
def calculate_levenshtein_distance (word1 word2 : String) : Nat :=
  if word1.length < word2.length then levCore word2.data word1.data
  else levCore word1.data word2.data

/-- The mutable state of a `Corrector` instance.  `dictionary` is the
word set in its iteration order; `word_freq` is the `Counter`;
`user_corrections` the personal override dict; `spell_checker` the
external black-box suggester (`SpellChecker.correction`), `none` when it
yields no suggestion. -/
structure Corrector where
  dictionary : List String
  word_freq : List (String × Int)
  user_corrections : List (String × String)
  spell_checker : String → Option String

/-- Python `word in self.dictionary`. -/
def dictContains (c : Corrector) (w : String) : Bool :=
  c.dictionary.contains w

/-- `self.word_freq.get(k, 0)` — also the `if k in self.word_freq:
score += self.word_freq[k]` pattern, absent keys counting 0. -/
def lookupFreq (c : Corrector) (k : String) : Int :=
  match c.word_freq.find? (fun p => p.1 == k) with
  | some p => p.2
  | none => 0

/-- Association-list lookup, modelling Python `dict` indexing. -/
def dictLookup (m : List (String × String)) (k : String) : Option String :=
  match m.find? (fun p => p.1 == k) with
  | some p => some p.2
  | none => none

/-- Python `d[k] = v` on an ordered dict: update in place when the key
exists, otherwise append. -/
def dictInsert (m : List (String × Int)) (k : String) (v : Int) :
    List (String × Int) :=
  if m.any (fun p => p.1 == k) then
    m.map (fun p => if p.1 == k then (k, v) else p)
  else m ++ [(k, v)]

/-- Python `d[k] = v` for the string-valued `user_corrections` dict. -/
def dictInsertS (m : List (String × String)) (k : String) (v : String) :
    List (String × String) :=
  if m.any (fun p => p.1 == k) then
    m.map (fun p => if p.1 == k then (k, v) else p)
  else m ++ [(k, v)]

/-- Python `set.add`: membership-preserving insertion. -/
def addSet (l : List String) (w : String) : List String :=
  if l.contains w then l else l ++ [w]

/-- The sort key relation of `_get_candidates`:
`key=lambda x: (x[1], -self.word_freq.get(x[0], 0))`, i.e. ascending
edit distance from `w`, then descending stored frequency. -/
def candLe (c : Corrector) (w : String) (x y : String) : Prop :=
  calculate_levenshtein_distance w x < calculate_levenshtein_distance w y ∨
    (calculate_levenshtein_distance w x = calculate_levenshtein_distance w y ∧
      lookupFreq c y ≤ lookupFreq c x)

instance (c : Corrector) (w : String) : DecidableRel (candLe c w) := by
  intro x y
  unfold candLe
  infer_instance

instance (c : Corrector) (w : String) : IsTotal String (candLe c w) := by
  refine ⟨fun x y => ?_⟩
  unfold candLe
  omega

instance (c : Corrector) (w : String) : IsTrans String (candLe c w) := by
  refine ⟨fun x y z hxy hyz => ?_⟩
  unfold candLe at hxy hyz ⊢
  omega

/-- `Corrector._get_candidates`: brute-force scan of the dictionary for
words within `max_distance`, stably sorted by (distance, -frequency). -/
def get_candidates (c : Corrector) (word : String) (max_distance : Nat) :
    List String :=
  if dictContains c word then [word]
  else
    List.insertionSort (candLe c word)
      (c.dictionary.filter
        (fun d => calculate_levenshtein_distance word d ≤ max_distance))

/-- `string.ascii_lowercase`. -/
def asciiLowercase : List Char :=
  "abcdefghijklmnopqrstuvwxyz".data

/-- The `splits` of `edits1`: all `(word[:i], word[i:])` pairs. -/
def wordSplits (w : List Char) : List (List Char × List Char) :=
  (List.range (w.length + 1)).map (fun i => (w.take i, w.drop i))

/-- `edits1` of `_get_norvig_candidates`: deletes, adjacent transposes,
substitutions and insertions over the lowercase alphabet.  The Python
code wraps the concatenation in `set(...)`; the list here enumerates the
same neighbourhood, and set semantics is recovered by the dedup applied
where the candidate set is materialised. -/
def edits1 (w : String) : List String :=
  let s := wordSplits w.data
  let deletes := s.filterMap (fun p =>
    match p.2 with
    | [] => none
    | _ :: rest => some (p.1 ++ rest))
  let transposes := s.filterMap (fun p =>
    match p.2 with
    | a :: b :: rest => some (p.1 ++ b :: a :: rest)
    | _ => none)
  let replaces := s.flatMap (fun p =>
    match p.2 with
    | [] => []
    | _ :: rest => asciiLowercase.map (fun ch => p.1 ++ ch :: rest))
  let inserts := s.flatMap (fun p =>
    asciiLowercase.map (fun ch => p.1 ++ ch :: p.2))
  (deletes ++ transposes ++ replaces ++ inserts).map (fun l => ⟨l⟩)

/-- `edits2` of `_get_norvig_candidates`: every single edit of every
single edit. -/
def edits2 (w : String) : List String :=
  (edits1 w).flatMap edits1

/-- Deduplication keeping first occurrences, tracking elements already
emitted. -/
def dedupSeen (seen : List String) : List String → List String
  | [] => []
  | x :: xs =>
    if seen.contains x then dedupSeen seen xs
    else x :: dedupSeen (x :: seen) xs

/-- Deduplication keeping first occurrences, recovering set semantics
for the Python candidate sets. -/
def dedupKeepFirst (l : List String) : List String :=
  dedupSeen [] l

/-- Descending-frequency sort relation of `_get_norvig_candidates`:
`key=lambda x: self.word_freq.get(x, 0), reverse=True`. -/
def freqGe (c : Corrector) (x y : String) : Prop :=
  lookupFreq c y ≤ lookupFreq c x

instance (c : Corrector) : DecidableRel (freqGe c) := by
  intro x y
  unfold freqGe
  infer_instance

instance (c : Corrector) : IsTotal String (freqGe c) := by
  refine ⟨fun x y => ?_⟩
  unfold freqGe
  omega

instance (c : Corrector) : IsTrans String (freqGe c) := by
  refine ⟨fun x y z hxy hyz => ?_⟩
  unfold freqGe at hxy hyz ⊢
  omega

/-- The `if max_distance >= 1` stage of `_get_norvig_candidates`: the
dictionary-filtered one-edit neighbourhood. -/
def norvigS1 (c : Corrector) (word : String) (max_distance : Nat) :
    List String :=
  if 1 ≤ max_distance then (edits1 word).filter (fun e => dictContains c e)
  else []

/-- The `if max_distance >= 2: if not candidates` stage: the
dictionary-filtered two-edit neighbourhood, consulted only when the
one-edit stage produced nothing. -/
def norvigS2 (c : Corrector) (word : String) (max_distance : Nat) :
    List String :=
  if 2 ≤ max_distance ∧ norvigS1 c word max_distance = [] then
    (edits2 word).filter (fun e => dictContains c e)
  else []

/-- The materialised candidate set of `_get_norvig_candidates` before
sorting: both stages plus the original word when it is in the
dictionary, with set semantics restored by deduplication. -/
def norvigPool (c : Corrector) (word : String) (max_distance : Nat) :
    List String :=
  dedupKeepFirst
    (norvigS1 c word max_distance ++ norvigS2 c word max_distance ++
      (if dictContains c word then [word] else []))

/-- `Corrector._get_norvig_candidates`: the pool in descending-frequency
order, with `[word]` as terminal fallback when it is empty. -/
def get_norvig_candidates (c : Corrector) (word : String) (max_distance : Nat) :
    List String :=
  if (List.insertionSort (freqGe c) (norvigPool c word max_distance)).isEmpty
  then [word]
  else List.insertionSort (freqGe c) (norvigPool c word max_distance)

/-- Occurrence count in a list (the `Counter` multiplicity). -/
def countOcc (l : List String) (x : String) : Nat :=
  (l.filter (fun y => y == x)).length

/-- `Counter(l).most_common(1)[0][0]`: the element with the greatest
multiplicity; among equal counts the earliest first occurrence wins,
matching the insertion-ordered, stable `most_common` of `Counter`. -/
def mostCommon1 (l : List String) : String :=
  (dedupKeepFirst l).foldl
    (fun best x => if countOcc l x > countOcc l best then x else best)
    (l.headD "")

/-- `word.lower().strip()`, the normalisation of `correct_word`. -/
def normalizeTok (w : String) : String :=
  pyStrip (pyLower w)

/-- The vote of the external collaborator, `norvig_correction or word`:
Python `or` replaces both `None` and the empty string by `word`. -/
def extSuggestion (c : Corrector) (w : String) : String :=
  match c.spell_checker w with
  | none => w
  | some s => if s = "" then w else s

/-- `Corrector.correct_word`: empty and whitespace-only input returned
unchanged; dictionary words returned (normalised); user corrections
next; otherwise a plurality vote over the external suggestion, the
Strategy A top result and the Strategy B top result. -/
def correct_word (c : Corrector) (word : String) : String :=
  if word = "" ∨ pyStrip word = "" then word
  else
    let w := normalizeTok word
    if dictContains c w then w
    else
      match dictLookup c.user_corrections w with
      | some corr => corr
      | none =>
        let levCandidates := get_candidates c w 2
        let levCorrection := levCandidates.headD w
        let norvigCandidates := get_norvig_candidates c w 2
        let norvigDirect := norvigCandidates.headD w
        mostCommon1 [extSuggestion c w, levCorrection, norvigDirect]

/-- The token loop of `Corrector.correct_text` (tokenisation and the
final whitespace fix-up around punctuation are outside the engine
core): punctuation-substring and digit tokens pass through, every other
token goes through `correct_word`. -/
def correctTokens (c : Corrector) (tokens : List String) : List String :=
  tokens.map (fun t => if isPunctOrDigitToken t then t else correct_word c t)

/-- The candidate list used by `correct_with_context`: Strategy A, and
Strategy B when Strategy A is empty or its top result is the token
itself. -/
def contextCandidates (c : Corrector) (token : String) : List String :=
  match get_candidates c token 2 with
  | [] => get_norvig_candidates c token 2
  | t0 :: rest => if t0 = token then get_norvig_candidates c token 2
                  else t0 :: rest

/-- The context score of a candidate at position `i`:
`word_freq` counts of the bigram with the previous token
(`tokens[max(0,i-2):i][-1]`) and with the next token
(`tokens[i+1:i+3][0]`), each 0 when absent. -/
def contextScore (c : Corrector) (tokens : List String) (i : Nat)
    (cand : String) : Int :=
  (match ((tokens.take i).drop (i - 2)).getLast? with
   | some prev => lookupFreq c (prev ++ " " ++ cand)
   | none => 0) +
  (match ((tokens.drop (i + 1)).take 2).head? with
   | some nxt => lookupFreq c (cand ++ " " ++ nxt)
   | none => 0)

/-- One step of the best-candidate scan: update on a strictly greater
score (`if score > highest_score`). -/
def voteStep (f : String → Int) (p : String × Int) (cand : String) :
    String × Int :=
  if f cand > p.2 then (cand, f cand) else p

/-- The body of the `correct_with_context` loop for one position. -/
def contextCorrectToken (c : Corrector) (tokens : List String) (i : Nat)
    (token : String) : String :=
  if isPunctOrDigitToken token then token
  else if dictContains c token then token
  else
    let cands := contextCandidates c token
    match cands with
    | [] => correct_word c token
    | [_] => correct_word c token
    | _ =>
      let best := cands.foldl (voteStep (contextScore c tokens i)) (token, -1)
      if best.2 ≤ 0 then correct_word c token else best.1

/-- The token loop of `Corrector.correct_with_context`: each position is
rewritten from the original token list (context is read from the
uncorrected `tokens`). -/
def correctWithContextTokens (c : Corrector) (tokens : List String) :
    List String :=
  (List.range tokens.length).map
    (fun i => contextCorrectToken c tokens i (tokens.getD i ""))

/-- `Corrector.add_to_dictionary` (the mirror update of the opaque
frequency table of the external spell checker is outside the model). -/
def add_to_dictionary (c : Corrector) (word : String) (frequency : Int) :
    Corrector :=
  let w := normalizeTok word
  { c with
    dictionary := addSet c.dictionary w
    word_freq := dictInsert c.word_freq w frequency }

/-- `Corrector.add_user_correction`: store the normalised pair, then add
the correction to the dictionary when absent (default frequency 1). -/
def add_user_correction (c : Corrector) (misspelled correction : String) :
    Corrector :=
  let m := normalizeTok misspelled
  let co := normalizeTok correction
  let c1 := { c with user_corrections := dictInsertS c.user_corrections m co }
  if dictContains c1 co then c1 else add_to_dictionary c1 co 1

/-- Input of a custom-dictionary load: either the open call fails, or
the file yields a list of lines. -/
inductive LoadInput where
  | ioError : LoadInput
  | fileLines : List String → LoadInput

/-- The line loop of `Corrector.load_custom_dictionary`.  Lines with
fewer than two fields are skipped; a line whose second field does not
parse as an integer raises `ValueError`, which the surrounding
`try/except` catches, aborting the remaining lines with the error
reported (the returned flag). -/
def loadLines (c : Corrector) : List String → Corrector × Bool
  | [] => (c, false)
  | line :: rest =>
    let parts := pySplitWs line
    if 2 ≤ parts.length then
      match pyInt? (parts.getD 1 "") with
      | none => (c, true)
      | some freq =>
        let w := pyLower (parts.getD 0 "")
        loadLines
          { c with
            dictionary := addSet c.dictionary w
            word_freq := dictInsert c.word_freq w freq }
          rest
    else loadLines c rest

/-- `Corrector.load_custom_dictionary`: an open failure is caught and
reported, leaving the state untouched; otherwise the line loop runs.
The flag records whether the `except` branch reported an error. -/
def load_custom_dictionary (c : Corrector) (input : LoadInput) :
    Corrector × Bool :=
  match input with
  | LoadInput.ioError => (c, true)
  | LoadInput.fileLines ls => loadLines c ls

/-! ### Concrete engine states used in tests -/

/-- A corrector with an empty dictionary and a silent external
suggester. -/
def exEmpty : Corrector := ⟨[], [], [], fun _ => none⟩

/-- Dictionary `{za}`, silent external suggester. -/
def exZa : Corrector := ⟨["za"], [], [], fun _ => none⟩

/-- The Strategy A test dictionary `{hello, help, hold}` in one possible
set-iteration order. -/
def exHelo : Corrector := ⟨["help", "hello", "hold"], [], [], fun _ => none⟩

/-- The Strategy B test dictionary `{the}`. -/
def exThe : Corrector := ⟨["the"], [], [], fun _ => none⟩

/-- A dictionary containing the hyphenated entry `a-`. -/
def exPunct : Corrector := ⟨["a-"], [], [], fun _ => none⟩

/-- The context test state: bigram count favouring `how are`. -/
def exBigram : Corrector :=
  ⟨["how", "you", "are", "arm"], [("how are", 5)], [], fun _ => none⟩

/-- No bigram evidence, but a user correction for `arr`. -/
def exUser : Corrector := ⟨["are", "arm", "you"], [], [("arr", "you")], fun _ => none⟩

/-- No bigram evidence and no user correction. -/
def exNoCtx : Corrector := ⟨["are", "arm"], [], [], fun _ => none⟩

/-- A (custom-loadable) dictionary that already contains `teh`. -/
def exTeh : Corrector := ⟨["teh"], [], [], fun _ => none⟩

/-- Dictionary `{good}`. -/
def exGood : Corrector := ⟨["good"], [], [], fun _ => none⟩

/-- A dictionary holding a capitalised and a lowercase entry, as the
default word list does for proper nouns. -/
def exTheCap : Corrector := ⟨["The", "the"], [], [], fun _ => none⟩

/-! ### Shared lemmas -/

/-- Membership in `dedupSeen`: present in the remainder and not already
emitted. -/
theorem mem_dedupSeen {x : String} : ∀ (l seen : List String),
    x ∈ dedupSeen seen l ↔ x ∈ l ∧ x ∉ seen
  | [], seen => by simp [dedupSeen]
  | y :: ys, seen => by
    rw [dedupSeen]
    by_cases hy : seen.contains y
    · rw [if_pos hy, mem_dedupSeen ys seen]
      constructor
      · rintro ⟨h1, h2⟩
        exact ⟨List.mem_cons_of_mem _ h1, h2⟩
      · rintro ⟨h1, h2⟩
        rcases List.mem_cons.mp h1 with rfl | h1
        · exact absurd (List.mem_of_elem_eq_true hy) h2
        · exact ⟨h1, h2⟩
    · rw [if_neg hy]
      by_cases hxy : x = y
      · subst hxy
        have hns : x ∉ seen := fun hmem => hy (List.elem_iff.mpr hmem)
        simp [hns]
      · simp only [List.mem_cons, hxy, false_or]
        rw [mem_dedupSeen ys (y :: seen)]
        simp [hxy]

/-- Membership is preserved by first-occurrence deduplication. -/
theorem mem_dedupKeepFirst {x : String} {l : List String} :
    x ∈ dedupKeepFirst l ↔ x ∈ l := by
  unfold dedupKeepFirst
  rw [mem_dedupSeen]
  simp

/-- `dedupKeepFirst` on three pairwise distinct elements. -/
theorem dedupKeepFirst_three {e a b : String} (h1 : e ≠ a) (h2 : e ≠ b)
    (h3 : a ≠ b) : dedupKeepFirst [e, a, b] = [e, a, b] := by
  have ha : (a == e) = false := by simp [Ne.symm h1]
  have hb : (b == e) = false := by simp [Ne.symm h2]
  have hba : (b == a) = false := by simp [Ne.symm h3]
  simp [dedupKeepFirst, dedupSeen, List.contains, List.elem, ha, hb, hba]

/-- `dedupKeepFirst` on `[e, a, a]` with `e ≠ a`. -/
theorem dedupKeepFirst_pair {e a : String} (h : e ≠ a) :
    dedupKeepFirst [e, a, a] = [e, a] := by
  have ha : (a == e) = false := by simp [Ne.symm h]
  simp [dedupKeepFirst, dedupSeen, List.contains, List.elem, ha]

theorem countOcc_cons (y : String) (l : List String) (x : String) :
    countOcc (y :: l) x = (if y = x then 1 else 0) + countOcc l x := by
  unfold countOcc
  by_cases h : y = x
  · simp only [List.filter_cons, h, beq_self_eq_true, if_true, if_pos]
    simp [Nat.add_comm]
  · have hb : (y == x) = false := by simp [h]
    simp [List.filter_cons, hb, h]

theorem countOcc_nil (x : String) : countOcc [] x = 0 := rfl

/-- With three pairwise distinct proposals every count is one, so the
earliest (the slot of the external collaborator) wins `most_common`. -/
theorem mostCommon1_distinct {e a b : String} (h1 : e ≠ a) (h2 : e ≠ b)
    (h3 : a ≠ b) : mostCommon1 [e, a, b] = e := by
  unfold mostCommon1
  rw [dedupKeepFirst_three h1 h2 h3]
  have ce : countOcc [e, a, b] e = 1 := by
    simp [countOcc_cons, countOcc_nil, h1.symm, h2.symm]
  have ca : countOcc [e, a, b] a = 1 := by
    simp [countOcc_cons, countOcc_nil, h1, h3.symm]
  have cb : countOcc [e, a, b] b = 1 := by
    simp [countOcc_cons, countOcc_nil, h2, h3]
  simp [List.foldl, ce, ca, cb]

/-- When the two internal strategies agree against a distinct external
proposal, their common word has count two and wins the vote. -/
theorem mostCommon1_pair {e a : String} (h : e ≠ a) :
    mostCommon1 [e, a, a] = a := by
  unfold mostCommon1
  rw [dedupKeepFirst_pair h]
  have ce : countOcc [e, a, a] e = 1 := by
    simp [countOcc_cons, countOcc_nil, h.symm]
  have ca : countOcc [e, a, a] a = 2 := by
    simp [countOcc_cons, countOcc_nil, h]
  simp [List.foldl, ce, ca]

/-- A best-candidate scan whose start value already dominates every
score is left unchanged. -/
theorem voteFold_const (f : String → Int) :
    ∀ (l : List String) (b0 : String) (h0 : Int),
      (∀ x ∈ l, f x ≤ h0) → l.foldl (voteStep f) (b0, h0) = (b0, h0)
  | [], _, _, _ => rfl
  | x :: xs, b0, h0, h => by
    have hx : ¬ f x > h0 := not_lt.mpr (h x (by simp))
    simp only [List.foldl, voteStep, hx, if_false]
    exact voteFold_const f xs b0 h0 (fun y hy => h y (by simp [hy]))

/-- When some score strictly beats the start value, the scan returns the
earliest candidate attaining the running maximum: the list splits around
the result, everything before it scores strictly less, everything after
at most as much. -/
theorem voteFold_found (f : String → Int) :
    ∀ (l : List String) (b0 : String) (h0 : Int),
      (∃ x ∈ l, h0 < f x) →
      ∃ l1 l2,
        l = l1 ++ (l.foldl (voteStep f) (b0, h0)).1 :: l2 ∧
        (l.foldl (voteStep f) (b0, h0)).2 =
          f (l.foldl (voteStep f) (b0, h0)).1 ∧
        h0 < (l.foldl (voteStep f) (b0, h0)).2 ∧
        (∀ y ∈ l1, f y < (l.foldl (voteStep f) (b0, h0)).2) ∧
        (∀ y ∈ l2, f y ≤ (l.foldl (voteStep f) (b0, h0)).2)
  | [], b0, h0, h => by simp at h
  | x :: xs, b0, h0, h => by
    by_cases hx : f x > h0
    · simp only [List.foldl, voteStep, hx, if_true]
      by_cases hrest : ∃ y ∈ xs, f x < f y
      · obtain ⟨l1, l2, hsplit, hval, hlt, hbefore, hafter⟩ :=
          voteFold_found f xs x (f x) hrest
        refine ⟨x :: l1, l2, ?_, hval, lt_trans hx hlt, ?_, hafter⟩
        · simpa using hsplit
        · intro y hy
          rcases List.mem_cons.mp hy with hy | hy
          · subst hy; exact hlt
          · exact hbefore y hy
      · push_neg at hrest
        rw [voteFold_const f xs x (f x) hrest]
        exact ⟨[], xs, rfl, rfl, hx, by simp, hrest⟩
    · simp only [List.foldl, voteStep, hx, if_false]
      have hxle : f x ≤ h0 := not_lt.mp hx
      have h' : ∃ y ∈ xs, h0 < f y := by
        obtain ⟨y, hy, hlt⟩ := h
        rcases List.mem_cons.mp hy with hy | hy
        · subst hy; exact absurd hlt (not_lt.mpr hxle)
        · exact ⟨y, hy, hlt⟩
      obtain ⟨l1, l2, hsplit, hval, hlt, hbefore, hafter⟩ :=
        voteFold_found f xs b0 h0 h'
      refine ⟨x :: l1, l2, ?_, hval, hlt, ?_, hafter⟩
      · simpa using hsplit
      · intro y hy
        rcases List.mem_cons.mp hy with hy | hy
        · subst hy; exact lt_of_le_of_lt hxle hlt
        · exact hbefore y hy

/-- Looking up a freshly inserted key returns the inserted value. -/
theorem dictLookup_dictInsertS (m : List (String × String)) (k v : String) :
    dictLookup (dictInsertS m k v) k = some v := by
  unfold dictInsertS
  by_cases h : m.any (fun p => p.1 == k)
  · simp only [h, if_true]
    unfold dictLookup
    induction m with
    | nil => simp at h
    | cons q m ih =>
      by_cases hq : q.1 == k
      · simp [List.find?, hq]
      · simp only [List.map, hq, if_false]
        have h' : m.any (fun p => p.1 == k) = true := by
          simp only [List.any_cons, hq, Bool.false_or] at h
          exact h
        have := ih h'
        simpa [List.find?, hq] using this
  · have hfalse : m.any (fun p => p.1 == k) = false := Bool.eq_false_iff.mpr h
    rw [hfalse]
    simp only [Bool.false_eq_true, if_false]
    unfold dictLookup
    rw [List.find?_append]
    have hnone : m.find? (fun p => p.1 == k) = none := by
      rw [List.find?_eq_none]
      intro p hp
      have := List.any_eq_false.mp hfalse p hp
      simpa using this
    simp [hnone, List.find?]

/-- The user-correction table after `add_user_correction` is the
inserted table, whichever branch the dictionary check takes. -/
theorem add_user_correction_table (c : Corrector) (mis corr : String) :
    (add_user_correction c mis corr).user_corrections =
      dictInsertS c.user_corrections (normalizeTok mis) (normalizeTok corr) := by
  unfold add_user_correction add_to_dictionary
  by_cases h : dictContains
      { c with user_corrections :=
          dictInsertS c.user_corrections (normalizeTok mis) (normalizeTok corr) }
      (normalizeTok corr) <;> simp [h]

/-- The left neighbour consulted by `correct_with_context` is exactly
the token immediately preceding position `i`. -/
theorem contextBefore_getLast (tokens : List String) (i : Nat)
    (h : i ≤ tokens.length) :
    ((tokens.take i).drop (i - 2)).getLast? =
      if i = 0 then none else some (tokens.getD (i - 1) "") := by
  by_cases h0 : i = 0
  · subst h0; simp
  · simp only [h0, if_false]
    rw [List.getLast?_eq_getElem?, List.getElem?_drop]
    have hlen : ((tokens.take i).drop (i - 2)).length = i - (i - 2) := by
      simp [List.length_drop, List.length_take]
      omega
    have hidx : i - 2 + (((tokens.take i).drop (i - 2)).length - 1) = i - 1 := by
      rw [hlen]; omega
    rw [hidx, List.getElem?_take, if_pos (by omega)]
    rw [List.getElem?_eq_getElem (by omega), List.getD_eq_getElem?_getD,
      List.getElem?_eq_getElem (by omega)]
    rfl

/-- The right neighbour consulted by `correct_with_context` is exactly
the token immediately following position `i`. -/
theorem contextAfter_head (tokens : List String) (i : Nat) :
    ((tokens.drop (i + 1)).take 2).head? =
      if i + 1 < tokens.length then some (tokens.getD (i + 1) "") else none := by
  rw [List.head?_eq_getElem?, List.getElem?_take, if_pos (by omega),
    List.getElem?_drop]
  by_cases h : i + 1 < tokens.length
  · rw [if_pos h]
    rw [List.getElem?_eq_getElem (by omega), List.getD_eq_getElem?_getD,
      List.getElem?_eq_getElem (by omega)]
    rfl
  · rw [if_neg h, List.getElem?_eq_none]
    omega

/-- Reading position `i < len` out of the `correct_text` token loop. -/
theorem correctTokens_getD (c : Corrector) (tokens : List String) (i : Nat)
    (h : i < tokens.length) :
    (correctTokens c tokens).getD i "" =
      (if isPunctOrDigitToken (tokens.getD i "") then tokens.getD i ""
       else correct_word c (tokens.getD i "")) := by
  unfold correctTokens
  rw [List.getD_eq_getElem?_getD, List.getElem?_map,
    List.getElem?_eq_getElem h, List.getD_eq_getElem?_getD,
    List.getElem?_eq_getElem h]
  rfl

/-- Reading position `i < len` out of the `correct_with_context` token
loop. -/
theorem correctWithContextTokens_getD (c : Corrector) (tokens : List String)
    (i : Nat) (h : i < tokens.length) :
    (correctWithContextTokens c tokens).getD i "" =
      contextCorrectToken c tokens i (tokens.getD i "") := by
  unfold correctWithContextTokens
  rw [List.getD_eq_getElem?_getD, List.getElem?_map, List.getElem?_range h]
  rfl

/-! ### Claim C8 -/

/-- C8, counterexample: `correctWord` is not a fixed point on every
dictionary word.  With both `The` and `the` in the dictionary (as in
the default word list, which keeps capitalised proper nouns),
`correct_word` returns the normalised token `the`, not the input `The`,
because the token is lowercased before the dictionary lookup. -/
theorem claim8_counterexample :
    exTheCap.dictionary.contains "The" = true ∧
    correct_word exTheCap "The" = "the" ∧ "the" ≠ "The" := by
  refine ⟨by decide, by decide, by decide⟩

/-- C8, amended: `correct_word c w = w` for every `w` in the dictionary
that is already normalised (lowercase with no surrounding whitespace);
the early dictionary branch returns it before candidate generation,
user-correction lookup or voting. -/
theorem claim8_amended (c : Corrector) (w : String)
    (hnorm : normalizeTok w = w) (hmem : dictContains c w = true) :
    correct_word c w = w := by
  unfold correct_word
  by_cases h : w = "" ∨ pyStrip w = ""
  · rw [if_pos h]
  · rw [if_neg h]
    simp only [hnorm, hmem, if_true]

/-- C8 witness: the amended theorem at the dictionary word `the`. -/
theorem claim8_witness : correct_word exThe "the" = "the" :=
  claim8_amended exThe "the" (by decide) (by decide)

/-! ### Claim C4 -/

/-- C4, counterexample: the user-correction entry does not override the
dictionary.  When `teh` itself is a dictionary entry, the dictionary
branch of `correct_word` fires before the user-correction lookup, so
after `addUserCorrection("teh", "the")` the call `correctWord("teh")`
returns `teh`, not the mapped `the`. -/
theorem claim4_counterexample :
    dictLookup (add_user_correction exTeh "teh" "the").user_corrections
        "teh" = some "the" ∧
    correct_word (add_user_correction exTeh "teh" "the") "teh" = "teh" ∧
    "teh" ≠ "the" := by
  refine ⟨by decide, by decide, by decide⟩

/-- C4, amended: after `add_user_correction`, the stored mapping does
override Strategy A, Strategy B and the external suggester — for every
misspelled token whose normalised form is not in the (updated)
dictionary, `correct_word` returns the normalised correction without
consulting any strategy; the dictionary branch, however, precedes the
user-correction lookup. -/
theorem claim4_amended (c : Corrector) (mis corr : String)
    (hw : ¬(mis = "" ∨ pyStrip mis = ""))
    (hd : dictContains (add_user_correction c mis corr) (normalizeTok mis)
      = false) :
    correct_word (add_user_correction c mis corr) mis = normalizeTok corr := by
  unfold correct_word
  rw [if_neg hw]
  simp only [hd, Bool.false_eq_true, if_false]
  rw [add_user_correction_table, dictLookup_dictInsertS]

/-- C4 witness: after `addUserCorrection("teh", "the")` on a state whose
dictionary does not contain `teh`, `correctWord("teh")` is `the`. -/
theorem claim4_witness :
    correct_word (add_user_correction exGood "teh" "the") "teh" =
      normalizeTok "the" :=
  claim4_amended exGood "teh" "the" (by decide) (by decide)

/-! ### Claim C7 -/

/-- C7, counterexample: a malformed row is not skipped silently with
loading continuing.  On lines `good 5`, `bad xy`, `late 7` the
non-integer frequency of the second line raises inside the loop; the
surrounding `except` catches it, reporting an error and abandoning the
remaining lines, so `late` is never loaded. -/
theorem claim7_counterexample :
    (load_custom_dictionary exEmpty
        (LoadInput.fileLines ["good 5", "bad xy", "late 7"])).1.dictionary
      = ["good"] ∧
    (load_custom_dictionary exEmpty
        (LoadInput.fileLines ["good 5", "bad xy", "late 7"])).2 = true ∧
    ("late" ∈ (load_custom_dictionary exEmpty
        (LoadInput.fileLines ["good 5", "bad xy", "late 7"])).1.dictionary
      ↔ False) := by
  refine ⟨by decide, by decide, by decide⟩

/-- C7, amended: during a custom dictionary load, a line with fewer than
two whitespace-separated fields is skipped silently and loading
continues; a line whose second field is not an integer aborts the load
at that line with the error reported to the caller (keeping the effects
of the lines already processed); and a hard I/O failure on opening is
reported to the caller while leaving the dictionary/frequency state
exactly as before the load. -/
theorem claim7_amended :
    (∀ c : Corrector, load_custom_dictionary c LoadInput.ioError = (c, true)) ∧
    (∀ (c : Corrector) (line : String) (rest : List String),
      (pySplitWs line).length < 2 →
      loadLines c (line :: rest) = loadLines c rest) ∧
    (∀ (c : Corrector) (line : String) (rest : List String),
      2 ≤ (pySplitWs line).length →
      pyInt? ((pySplitWs line).getD 1 "") = none →
      loadLines c (line :: rest) = (c, true)) := by
  refine ⟨fun c => rfl, fun c line rest h => ?_, fun c line rest h hbad => ?_⟩
  · conv_lhs => rw [loadLines]
    rw [if_neg (by omega)]
  · conv_lhs => rw [loadLines]
    rw [if_pos h, hbad]

/-- C7 witness: the three amended behaviours at concrete inputs — an
I/O failure, the short line `x`, and the unparsable line `bad xy`. -/
theorem claim7_witness :
    load_custom_dictionary exEmpty LoadInput.ioError = (exEmpty, true) ∧
    loadLines exEmpty ["x", "late 7"] = loadLines exEmpty ["late 7"] ∧
    loadLines exEmpty ["bad xy", "late 7"] = (exEmpty, true) :=
  ⟨claim7_amended.1 exEmpty,
   claim7_amended.2.1 exEmpty "x" ["late 7"] (by decide),
   claim7_amended.2.2 exEmpty "bad xy" ["late 7"] (by decide) (by decide)⟩

/-! ### Claim C3 -/

/-- C3: Strategy B first filters the one-edit neighbourhood to
dictionary members and, when that set is nonempty, every candidate it
returns comes from that set (or is the original word, via the
dictionary/fallback branches) — the two-edit neighbourhood is not
consulted; when both filtered neighbourhoods are empty and the word is
not in the dictionary, the result is exactly `[w]`; and on dictionary
`{the}` the transposition `teh` resolves to exactly `["the"]` with the
one-edit set already nonempty. -/
theorem claim3_strategyB :
    (∀ (c : Corrector) (w : String),
      (edits1 w).filter (fun e => dictContains c e) ≠ [] →
      ∀ x ∈ get_norvig_candidates c w 2,
        x ∈ (edits1 w).filter (fun e => dictContains c e) ∨ x = w) ∧
    (∀ (c : Corrector) (w : String),
      (edits1 w).filter (fun e => dictContains c e) = [] →
      (edits2 w).filter (fun e => dictContains c e) = [] →
      dictContains c w = false →
      get_norvig_candidates c w 2 = [w]) ∧
    (get_norvig_candidates exThe "teh" 2 = ["the"] ∧
      (edits1 "teh").filter (fun e => dictContains exThe e) ≠ []) := by
  have hs1 : ∀ (c : Corrector) (w : String),
      norvigS1 c w 2 = (edits1 w).filter (fun e => dictContains c e) := by
    intro c w
    unfold norvigS1
    rw [if_pos (by omega)]
  refine ⟨?_, ?_, by decide, by decide⟩
  · intro c w h1 x hx
    unfold get_norvig_candidates at hx
    have hs2 : norvigS2 c w 2 = [] := by
      unfold norvigS2
      rw [if_neg]
      rw [hs1 c w]
      simp [h1]
    by_cases hempty :
        (List.insertionSort (freqGe c) (norvigPool c w 2)).isEmpty
    · rw [if_pos hempty] at hx
      right
      simpa using hx
    · rw [if_neg hempty] at hx
      rw [List.mem_insertionSort] at hx
      unfold norvigPool at hx
      rw [mem_dedupKeepFirst] at hx
      rw [hs1 c w, hs2] at hx
      simp only [List.append_nil, List.mem_append] at hx
      rcases hx with hx | hx
      · exact Or.inl hx
      · right
        by_cases hw : dictContains c w
        · rw [if_pos hw] at hx
          simpa using hx
        · rw [if_neg (by simp [hw])] at hx
          simp at hx
  · intro c w h1 h2 hw
    have hp : norvigPool c w 2 = [] := by
      unfold norvigPool norvigS2
      rw [hs1 c w, h1]
      rw [if_pos (by constructor <;> simp [hs1, h1]), h2]
      rw [if_neg (by simp [hw])]
      rfl
    unfold get_norvig_candidates
    rw [hp]
    rfl

/-- C3 witness: the radius-1 containment instantiated on the `teh`
example — every candidate Strategy B returns for `teh` over `{the}` is
a dictionary member one edit away (or the word itself). -/
theorem claim3_witness :
    (edits1 "teh").filter (fun e => dictContains exThe e) ≠ [] ∧
    ∀ x ∈ get_norvig_candidates exThe "teh" 2,
      x ∈ (edits1 "teh").filter (fun e => dictContains exThe e) ∨ x = "teh" :=
  ⟨by decide, claim3_strategyB.1 exThe "teh" (by decide)⟩

/-! ### Claim C5 -/

/-- C5, counterexample: the ranking example in the spec is wrong about the
distances.  `helo` is at Levenshtein distance 1 from `help` (one
substitution), not 2, so `help` shares the distance tier of `hello`;
with no frequency data the stable sort keeps the dictionary iteration
order, and for the order `help, hello, hold` Strategy A ranks `help`
before `hello` — the ranking the claim requires of `hello` first does not
hold. -/
theorem claim5_counterexample :
    calculate_levenshtein_distance "helo" "help" = 1 ∧
    get_candidates exHelo "helo" 2 = ["help", "hello", "hold"] := by
  refine ⟨by decide, by decide⟩

/-- C5, amended: for a token in the dictionary Strategy A returns
exactly `[w]`; otherwise it returns precisely the dictionary words
within the distance threshold, ordered by ascending edit distance and,
within a tier, by descending stored frequency (unknown words counting
0).  In the `{hello, help, hold}` example, `hello` and `help` are both
at distance 1 and rank before `hold` (distance 2); the relative order
of `hello` and `help` is a frequency/iteration-order tie, not fixed. -/
theorem claim5_amended :
    (∀ (c : Corrector) (w : String) (maxd : Nat),
      (dictContains c w = true → get_candidates c w maxd = [w]) ∧
      (dictContains c w = false →
        (∀ x, x ∈ get_candidates c w maxd ↔
          x ∈ c.dictionary ∧ calculate_levenshtein_distance w x ≤ maxd) ∧
        List.Sorted (candLe c w) (get_candidates c w maxd))) ∧
    (calculate_levenshtein_distance "helo" "hello" = 1 ∧
     calculate_levenshtein_distance "helo" "hold" = 2 ∧
     List.indexOf "hello" (get_candidates exHelo "helo" 2) <
       List.indexOf "hold" (get_candidates exHelo "helo" 2) ∧
     List.indexOf "help" (get_candidates exHelo "helo" 2) <
       List.indexOf "hold" (get_candidates exHelo "helo" 2)) := by
  refine ⟨fun c w maxd => ⟨fun h => ?_, fun h => ⟨fun x => ?_, ?_⟩⟩,
    by decide, by decide, by decide, by decide⟩
  · unfold get_candidates
    rw [if_pos h]
  · unfold get_candidates
    rw [if_neg (by simp [h])]
    rw [List.mem_insertionSort, List.mem_filter, decide_eq_true_iff]
  · unfold get_candidates
    rw [if_neg (by simp [h])]
    exact List.sorted_insertionSort (candLe c w) _

/-- C5 witness: the amended characterisation instantiated on the
`helo` example — membership and sortedness of the returned list. -/
theorem claim5_witness :
    dictContains exHelo "helo" = false ∧
    (∀ x, x ∈ get_candidates exHelo "helo" 2 ↔
      x ∈ exHelo.dictionary ∧ calculate_levenshtein_distance "helo" x ≤ 2) ∧
    List.Sorted (candLe exHelo "helo") (get_candidates exHelo "helo" 2) :=
  ⟨by decide, (claim5_amended.1 exHelo "helo" 2).2 (by decide)⟩

/-! ### Claim C1 -/

/-- C1: for a nonempty, non-whitespace token outside the dictionary and
the user-correction map, `correct_word` is the plurality vote over the
three proposals (external suggester, Strategy A top result, Strategy B
top result); a three-way tie goes to the external proposal, and an
agreement of Strategy A with Strategy B against a distinct external
proposal goes to their common word. -/
theorem claim1_vote (c : Corrector) (word e a b : String)
    (hw : ¬(word = "" ∨ pyStrip word = ""))
    (hd : dictContains c (normalizeTok word) = false)
    (hu : dictLookup c.user_corrections (normalizeTok word) = none)
    (he : e = extSuggestion c (normalizeTok word))
    (ha : a = (get_candidates c (normalizeTok word) 2).headD (normalizeTok word))
    (hb : b = (get_norvig_candidates c (normalizeTok word) 2).headD
      (normalizeTok word)) :
    correct_word c word = mostCommon1 [e, a, b] ∧
    (e ≠ a → e ≠ b → a ≠ b → correct_word c word = e) ∧
    (a = b → e ≠ a → correct_word c word = a) := by
  subst he ha hb
  have hmain : correct_word c word =
      mostCommon1 [extSuggestion c (normalizeTok word),
        (get_candidates c (normalizeTok word) 2).headD (normalizeTok word),
        (get_norvig_candidates c (normalizeTok word) 2).headD
          (normalizeTok word)] := by
    unfold correct_word
    rw [if_neg hw]
    simp only [hd, Bool.false_eq_true, if_false, hu]
  refine ⟨hmain, fun h1 h2 h3 => ?_, fun hab hea => ?_⟩
  · rw [hmain]
    exact mostCommon1_distinct h1 h2 h3
  · rw [hmain, hab]
    exact mostCommon1_pair (hab ▸ hea)

/-- C1 witness: over the dictionary `{za}` with a silent external
collaborator, the token `zz` gets proposals `zz` (external default),
`za` (Strategy A) and `za` (Strategy B), and the internal pair wins the
vote against the distinct external proposal. -/
theorem claim1_witness :
    correct_word exZa "zz" = mostCommon1 ["zz", "za", "za"] ∧
    ("zz" : String) ≠ "za" ∧ correct_word exZa "zz" = "za" := by
  have h := claim1_vote exZa "zz" "zz" "za" "za" (by decide) (by decide)
    (by decide) (by decide) (by decide) (by decide)
  exact ⟨h.1, by decide, h.2.2 rfl (by decide)⟩

/-! ### Claim C10 -/

/-- C10: when Strategy A produces no candidate for a non-dictionary,
non-user-mapped token, `correct_word` does not fail — the original
normalised token takes the Strategy A slot in the three-way vote, so a
word is still returned. -/
theorem claim10_empty_strategyA (c : Corrector) (word : String)
    (hw : ¬(word = "" ∨ pyStrip word = ""))
    (hd : dictContains c (normalizeTok word) = false)
    (hu : dictLookup c.user_corrections (normalizeTok word) = none)
    (hA : get_candidates c (normalizeTok word) 2 = []) :
    correct_word c word =
      mostCommon1 [extSuggestion c (normalizeTok word), normalizeTok word,
        (get_norvig_candidates c (normalizeTok word) 2).headD
          (normalizeTok word)] := by
  unfold correct_word
  rw [if_neg hw]
  simp only [hd, Bool.false_eq_true, if_false, hu, hA, List.headD_nil]

/-- C10 witness: over the empty dictionary Strategy A yields nothing
for `z`, and `correct_word` still returns the vote with `z` in
the Strategy A slot. -/
theorem claim10_witness :
    correct_word exEmpty "z" =
      mostCommon1 [extSuggestion exEmpty (normalizeTok "z"), normalizeTok "z",
        (get_norvig_candidates exEmpty (normalizeTok "z") 2).headD
          (normalizeTok "z")] :=
  claim10_empty_strategyA exEmpty "z" (by decide) (by decide) (by decide)
    (by decide)

/-! ### Claim C9 -/

/-- C9, counterexample: a token consisting solely of punctuation is not
always passed through.  The skip test is a substring check against the
punctuation constant, so the two-character token `--` (which real
tokenisers emit for dashes, and which is not a substring of
`string.punctuation`) is submitted for correction, and over the
dictionary `{a-}` both modes rewrite it to `a-`. -/
theorem claim9_counterexample :
    ("--" : String).data.all (fun ch => ch ∈ pythonPunct) = true ∧
    isPunctOrDigitToken "--" = false ∧
    correctTokens exPunct ["--"] = ["a-"] ∧
    correctWithContextTokens exPunct ["--"] = ["a-"] ∧
    ("a-" : String) ≠ "--" := by
  refine ⟨by decide, by decide, by decide, by decide, by decide⟩

/-- C9, amended: a token that passes the skip test of the source — it is a
substring of the punctuation constant (in particular, every
single-character punctuation token) or consists solely of digits — is
passed through unaltered, at its position, by both the `correct_text`
and the `correct_with_context` token loops; multi-character punctuation
runs that are not substrings of the constant (such as `--`) are instead
submitted for correction. -/
theorem claim9_amended (c : Corrector) (tokens : List String) (i : Nat)
    (hi : i < tokens.length)
    (hp : isPunctOrDigitToken (tokens.getD i "") = true) :
    (correctTokens c tokens).getD i "" = tokens.getD i "" ∧
    (correctWithContextTokens c tokens).getD i "" = tokens.getD i "" := by
  constructor
  · rw [correctTokens_getD c tokens i hi, if_pos hp]
  · rw [correctWithContextTokens_getD c tokens i hi]
    unfold contextCorrectToken
    rw [if_pos hp]

/-- C9 witness: the amended pass-through at the single-character
punctuation token `,` and the digit token `42`. -/
theorem claim9_witness :
    (correctTokens exPunct ["a", ",", "42"]).getD 1 "" = "," ∧
    (correctWithContextTokens exPunct ["a", ",", "42"]).getD 2 "" = "42" :=
  ⟨(claim9_amended exPunct ["a", ",", "42"] 1 (by decide) (by decide)).1,
   (claim9_amended exPunct ["a", ",", "42"] 2 (by decide) (by decide)).2⟩

/-! ### Claim C6 -/

/-- C6: when every context candidate for a non-dictionary,
non-pass-through token scores 0, `correct_with_context` delegates that
token to `correct_word`, so its output at that position coincides with
that of the `correct_text` loop. -/
theorem claim6_no_context_fallback (c : Corrector) (tokens : List String)
    (i : Nat) (hi : i < tokens.length)
    (hp : isPunctOrDigitToken (tokens.getD i "") = false)
    (hd : dictContains c (tokens.getD i "") = false)
    (hz : ∀ x ∈ contextCandidates c (tokens.getD i ""),
      contextScore c tokens i x = 0) :
    (correctWithContextTokens c tokens).getD i "" =
      correct_word c (tokens.getD i "") ∧
    (correctWithContextTokens c tokens).getD i "" =
      (correctTokens c tokens).getD i "" := by
  have hct : (correctTokens c tokens).getD i "" =
      correct_word c (tokens.getD i "") := by
    rw [correctTokens_getD c tokens i hi,
      if_neg (by rw [hp]; exact Bool.false_ne_true)]
  have hmain : (correctWithContextTokens c tokens).getD i "" =
      correct_word c (tokens.getD i "") := by
    rw [correctWithContextTokens_getD c tokens i hi]
    unfold contextCorrectToken
    rw [if_neg (by rw [hp]; exact Bool.false_ne_true),
      if_neg (by rw [hd]; exact Bool.false_ne_true)]
    rcases hc : contextCandidates c (tokens.getD i "") with _ | ⟨x, _ | ⟨y, rest⟩⟩
    · rfl
    · rfl
    · simp only []
      have hfound := voteFold_found (contextScore c tokens i) (x :: y :: rest)
        (tokens.getD i "") (-1)
        ⟨x, by simp, by
          rw [hz x (by rw [hc]; simp)]
          norm_num⟩
      obtain ⟨l1, l2, hsplit, hval, hlt, hbefore, hafter⟩ := hfound
      set r := (x :: y :: rest).foldl
        (voteStep (contextScore c tokens i)) (tokens.getD i "", -1) with hr
      have hmem : r.1 ∈ x :: y :: rest := by
        rw [hsplit]
        exact List.mem_append_right _ (List.mem_cons_self _ _)
      have hzero : contextScore c tokens i r.1 = 0 :=
        hz r.1 (by rw [hc]; exact hmem)
      have hle : r.2 ≤ 0 := by rw [hval, hzero]
      rw [if_pos hle]
  exact ⟨hmain, hmain.trans hct.symm⟩

/-- C6 witness: over `{are, arm}` with no bigram data, the token `arr`
has candidates `are` and `arm` both scoring 0, and both loops produce
the `correct_word` result for it. -/
theorem claim6_witness :
    (correctWithContextTokens exNoCtx ["arr"]).getD 0 "" =
      correct_word exNoCtx "arr" ∧
    (correctWithContextTokens exNoCtx ["arr"]).getD 0 "" =
      (correctTokens exNoCtx ["arr"]).getD 0 "" := by
  have h := claim6_no_context_fallback exNoCtx ["arr"] 0 (by decide) (by decide)
    (by decide) (by decide)
  exact h

/-! ### Claim C2 -/

/-- C2, counterexample: when every candidate scores 0 the loop does not
select the highest-scoring candidate — it delegates to `correct_word`,
which may return a word that is not a candidate at all.  Over
`{are, arm, you}` with no bigram data and a user correction
`arr → you`, the token `arr` has candidates `are` and `arm` (both score
0, earliest `are`), yet `correct_with_context` rewrites it to `you`. -/
theorem claim2_counterexample :
    contextCandidates exUser "arr" = ["are", "arm"] ∧
    (∀ x ∈ contextCandidates exUser "arr",
      contextScore exUser ["arr"] 0 x = 0) ∧
    correctWithContextTokens exUser ["arr"] = ["you"] ∧
    ("you" : String) ≠ "are" ∧ ("you" : String) ≠ "arm" := by
  refine ⟨by decide, by decide, by decide, by decide, by decide⟩

/-- C2, amended: for a non-dictionary, non-pass-through token with at
least two candidates, the context score of each candidate is the bigram
frequency with the immediately preceding token (when one exists) plus
the bigram frequency with the immediately following token (when one
exists); when the score of some candidate is positive, the loop keeps the
earliest candidate attaining the maximal score (every earlier candidate
scores strictly less, none scores more); when every score is 0 it
delegates to `correct_word` instead.  With bigram counts favouring
`how are`, `correctWithContext` on `how arr you` selects `are`. -/
theorem claim2_context_selection :
    (∀ (c : Corrector) (tokens : List String) (i : Nat),
      i < tokens.length →
      isPunctOrDigitToken (tokens.getD i "") = false →
      dictContains c (tokens.getD i "") = false →
      2 ≤ (contextCandidates c (tokens.getD i "")).length →
      (∃ x ∈ contextCandidates c (tokens.getD i ""),
        0 < contextScore c tokens i x) →
      ∃ l1 l2,
        contextCandidates c (tokens.getD i "") =
          l1 ++ ((correctWithContextTokens c tokens).getD i "") :: l2 ∧
        (∀ y ∈ l1, contextScore c tokens i y <
          contextScore c tokens i
            ((correctWithContextTokens c tokens).getD i "")) ∧
        (∀ y ∈ contextCandidates c (tokens.getD i ""),
          contextScore c tokens i y ≤
            contextScore c tokens i
              ((correctWithContextTokens c tokens).getD i ""))) ∧
    (∀ (c : Corrector) (tokens : List String) (i : Nat) (cand : String),
      i < tokens.length →
      contextScore c tokens i cand =
        (if 0 < i then
          lookupFreq c (tokens.getD (i - 1) "" ++ " " ++ cand)
         else 0) +
        (if i + 1 < tokens.length then
          lookupFreq c (cand ++ " " ++ tokens.getD (i + 1) "")
         else 0)) ∧
    correctWithContextTokens exBigram ["how", "arr", "you"] =
      ["how", "are", "you"] := by
  refine ⟨?_, ?_, by decide⟩
  · intro c tokens i hi hp hd hlen hpos
    rw [correctWithContextTokens_getD c tokens i hi]
    unfold contextCorrectToken
    rw [if_neg (by rw [hp]; exact Bool.false_ne_true),
      if_neg (by rw [hd]; exact Bool.false_ne_true)]
    rcases hc : contextCandidates c (tokens.getD i "")
      with _ | ⟨x, _ | ⟨y, rest⟩⟩
    · rw [hc] at hlen
      simp at hlen
    · rw [hc] at hlen
      simp at hlen
    · rw [hc] at hpos
      obtain ⟨w, hwmem, hwpos⟩ := hpos
      obtain ⟨l1, l2, hsplit, hval, hlt, hbefore, hafter⟩ :=
        voteFold_found (contextScore c tokens i) (x :: y :: rest)
          (tokens.getD i "") (-1) ⟨w, hwmem, by omega⟩
      set r := (x :: y :: rest).foldl
        (voteStep (contextScore c tokens i)) (tokens.getD i "", -1) with hr
      have hrpos : 0 < r.2 := by
        rw [hsplit] at hwmem
        rcases List.mem_append.mp hwmem with hw1 | hw2
        · exact lt_trans hwpos (hbefore w hw1)
        · rcases List.mem_cons.mp hw2 with heq | hw2
          · rw [hval, ← heq]
            exact hwpos
          · exact lt_of_lt_of_le hwpos (hafter w hw2)
      simp only []
      rw [if_neg (not_le.mpr hrpos)]
      refine ⟨l1, l2, ?_, ?_, ?_⟩
      · exact hsplit
      · intro z hz
        have := hbefore z hz
        rw [hval] at this
        exact this
      · intro z hz
        rw [hsplit] at hz
        rcases List.mem_append.mp hz with hz1 | hz2
        · have := hbefore z hz1
          rw [hval] at this
          exact le_of_lt this
        · rcases List.mem_cons.mp hz2 with heq | hz2
          · rw [heq]
          · have := hafter z hz2
            rw [hval] at this
            exact this
  · intro c tokens i cand hi
    unfold contextScore
    rw [contextBefore_getLast tokens i (le_of_lt hi), contextAfter_head tokens i]
    by_cases h0 : i = 0
    · subst h0
      by_cases h1 : 0 + 1 < tokens.length <;> simp [h1]
    · have h0p : 0 < i := Nat.pos_of_ne_zero h0
      by_cases h1 : i + 1 < tokens.length <;> simp [h0, h0p, h1]

/-- C2 witness: the selection property instantiated on `how arr you`
over the bigram count `how are ↦ 5`: the loop output at position 1 is
the earliest maximal-score candidate. -/
theorem claim2_witness :
    ∃ l1 l2,
      contextCandidates exBigram "arr" =
        l1 ++ ((correctWithContextTokens exBigram ["how", "arr", "you"]).getD
          1 "") :: l2 ∧
      (∀ y ∈ l1, contextScore exBigram ["how", "arr", "you"] 1 y <
        contextScore exBigram ["how", "arr", "you"] 1
          ((correctWithContextTokens exBigram ["how", "arr", "you"]).getD
            1 "")) ∧
      (∀ y ∈ contextCandidates exBigram "arr",
        contextScore exBigram ["how", "arr", "you"] 1 y ≤
          contextScore exBigram ["how", "arr", "you"] 1
            ((correctWithContextTokens exBigram ["how", "arr", "you"]).getD
              1 "")) :=
  claim2_context_selection.1 exBigram ["how", "arr", "you"] 1 (by decide)
    (by decide) (by decide) (by decide) (by decide)

end Autocorrect
